import Mathlib

/-!
Verification of the range allocator in rangeallocator.cpp: a first-fit
free-list allocator over the address range [base, base + length) with a
configurable granularity.

The C++ code is embedded shallowly:

* `size_t` / `vaddr_t` arithmetic is `Nat` with an explicit reduction
  modulo 2^64 wherever the source expression can wrap, and wrapping
  subtraction is spelled out (`subw`).
* The singly linked free-span list rooted at `_free_mem_root` is a
  `List Span` (the sentinel root node carries no data).
* The preallocated record pool `span_manager_pool` is modelled by the
  number of records currently on its free chain: records are
  interchangeable, so `get` and `release` are observably a counter that
  `get` decrements (failing at zero) and `release` increments.
* Steps on which the source has undefined behaviour are `none`:
  `span_manager_pool::get` returning a null pointer that the caller then
  dereferences (`add_span` results are used unchecked), and the
  out-of-bounds vector accesses in the pool constructor when the record
  count `(length / granularity) / 2` is zero.
-/

namespace RangeAlloc

/-- Width of the machine: every `size_t` / `vaddr_t` value is below 2^64. -/
def wsize : Nat := 2 ^ 64

/-- Wrapping subtraction: the value of the C expression `a - b` on `size_t`
operands `a b < wsize`. -/
def subw (a b : Nat) : Nat := (a + (wsize - b)) % wsize

/-- A contiguous run of memory (`struct span`); the `next` pointer of the
source is represented by list structure. -/
structure Span where
  base : Nat
  length : Nat
deriving DecidableEq, Repr

/-- The `allocation_flags` enumeration of rangeallocator.h. -/
inductive AllocFlags where
  | any
  | exact
  | above
  | below
deriving DecidableEq, Repr

/-- State of a `range_allocator<span_manager_pool>` instance: the three
configuration fields, the number of records available in the span pool,
and the free-span list. -/
structure RAState where
  base : Nat
  length : Nat
  granularity : Nat
  avail : Nat
  spans : List Span
deriving DecidableEq, Repr

/-- Rounding of a length up to the granularity, as computed by
`((length + _granularity - 1) / _granularity) * _granularity` on `size_t`
(the sum may wrap). -/
def roundUp (l g : Nat) : Nat := (l + g - 1) % wsize / g * g

/-- Rounding of an address down to the granularity, as computed by
`(base / _granularity) * _granularity`. -/
def roundDown (b g : Nat) : Nat := b / g * g

/-- `range_allocator::check_span`: does span `s` satisfy a request of
(already rounded) length `l` under `f` and `hint`? -/
def check_span (s : Span) (l : Nat) (f : AllocFlags) (hint : Nat) : Bool :=
  match f with
  | .any => decide (l ≤ s.length)
  | .exact => decide (s.base ≤ hint ∧ (hint + l) % wsize ≤ (s.base + s.length) % wsize)
  | .above =>
    if hint ≤ s.base then decide (l ≤ s.length)
    else if hint ≤ (s.base + s.length) % wsize then
      decide ((hint + l) % wsize ≤ (s.base + s.length) % wsize)
    else false
  | .below => decide ((s.base + l) % wsize ≤ hint ∧ l ≤ s.length)

/-- `range_allocator::trunc_span_low` acting on the list tail that starts
at the current span; returns the replacement tail and the new number of
available pool records. -/
def trunc_span_low (curr : Span) (rest : List Span) (l avail : Nat) : List Span × Nat :=
  if l = curr.length then (rest, avail + 1)
  else (⟨(curr.base + l) % wsize, subw curr.length l⟩ :: rest, avail)

/-- `range_allocator::trunc_span_high` on the tail starting at the current
span. -/
def trunc_span_high (curr : Span) (rest : List Span) (l avail : Nat) : List Span × Nat :=
  if l = curr.length then (rest, avail + 1)
  else (⟨curr.base, subw curr.length l⟩ :: rest, avail)

/-- `range_allocator::trunc_span_middle` on the tail starting at the
current span.  The `else` branch acquires a fresh record; if the pool is
exhausted the source dereferences the null result (`none` here). -/
def trunc_span_middle (curr : Span) (rest : List Span) (b l avail : Nat) :
    Option (List Span × Nat) :=
  if l = curr.length then some (rest, avail + 1)
  else if avail = 0 then none
  else
    some (⟨curr.base, subw b curr.base⟩ ::
          ⟨(b + l) % wsize, subw ((curr.base + curr.length) % wsize) ((b + l) % wsize)⟩ ::
          rest, avail - 1)

/-- `range_allocator::split_span` on the tail starting at the selected
span: returns the allocated address, the replacement tail and the new
available-record count. -/
def split_span (curr : Span) (rest : List Span) (l : Nat) (f : AllocFlags)
    (hint avail : Nat) : Option (Nat × List Span × Nat) :=
  match f with
  | .any => some (curr.base, trunc_span_low curr rest l avail)
  | .exact =>
    if curr.base = hint then some (hint, trunc_span_low curr rest l avail)
    else if (hint + l) % wsize = (curr.base + curr.length) % wsize then
      some (hint, trunc_span_high curr rest l avail)
    else (trunc_span_middle curr rest hint l avail).map fun p => (hint, p)
  | .above =>
    some (subw ((curr.base + curr.length) % wsize) l, trunc_span_high curr rest l avail)
  | .below => some (curr.base, trunc_span_low curr rest l avail)

/-- The search loop of `range_allocator::allocate`: first-fit scan over the
free list; the returned address is `none` when no span matches (the source
then returns the all-ones sentinel with the list untouched). -/
def allocScan (l : Nat) (f : AllocFlags) (hint avail : Nat) :
    List Span → Option (Option Nat × List Span × Nat)
  | [] => some (none, [], avail)
  | curr :: rest =>
    if check_span curr l f hint then
      (split_span curr rest l f hint avail).map fun p => (some p.1, p.2.1, p.2.2)
    else
      (allocScan l f hint avail rest).map fun p => (p.1, curr :: p.2.1, p.2.2)

/-- `range_allocator::allocate`.  The address component is `none` exactly
when the source returns the `(vaddr_t)-1` sentinel; the outer `Option` is
`none` when the source has undefined behaviour (pool exhausted inside
`trunc_span_middle`). -/
def allocate_ (st : RAState) (len : Nat) (f : AllocFlags) (hint : Nat) :
    Option (Option Nat × RAState) :=
  let l := roundUp len st.granularity
  if l = 0 then some (none, st)
  else if st.length < l then some (none, st)
  else
    (allocScan l f hint st.avail st.spans).map fun p =>
      (p.1, { st with spans := p.2.1, avail := p.2.2 })

/-- The `vaddr_t` actually returned by `allocate`: the sentinel
`(vaddr_t)-1 = 2^64 - 1` when no span matched. -/
def allocate_result (st : RAState) (len : Nat) (f : AllocFlags) (hint : Nat) :
    Option (Nat × RAState) :=
  (allocate_ st len f hint).map fun p => (p.1.getD (wsize - 1), p.2)

/-- The scan loop of `range_allocator::free`, from the current list
position on; returns the replacement tail and new available-record count,
`none` when an insertion needs a record and the pool is exhausted (the
source writes through the null `add_span` result). -/
def freeScan (b l : Nat) (avail : Nat) : List Span → Option (List Span × Nat)
  | [] =>
    if avail = 0 then none else some ([⟨b, l⟩], avail - 1)
  | next :: rest =>
    if (b + l) % wsize < next.base then
      if avail = 0 then none else some (⟨b, l⟩ :: next :: rest, avail - 1)
    else if (b + l) % wsize = next.base then
      some (⟨b, (next.length + l) % wsize⟩ :: rest, avail)
    else if b < (next.base + next.length) % wsize then
      some (next :: rest, avail)
    else if b = (next.base + next.length) % wsize then
      match rest with
      | [] => some ([⟨next.base, (next.length + l) % wsize⟩], avail)
      | nn :: rest2 =>
        if nn.base < (b + l) % wsize then some (next :: nn :: rest2, avail)
        else if (b + l) % wsize = nn.base then
          some (⟨next.base, (next.length + (l + nn.length) % wsize) % wsize⟩ :: rest2,
                avail + 1)
        else some (⟨next.base, (next.length + l) % wsize⟩ :: nn :: rest2, avail)
    else
      (freeScan b l avail rest).map fun p => (next :: p.1, p.2)

/-- `range_allocator::free`. -/
def free_ (st : RAState) (b len : Nat) : Option RAState :=
  let base := roundDown b st.granularity
  let l := roundUp len st.granularity
  if l = 0 then some st
  else if base < st.base then some st
  else if (st.base + st.length) % wsize ≤ base then some st
  else if (st.base + st.length) % wsize < (base + l) % wsize then some st
  else (freeScan base l st.avail st.spans).map fun p =>
    { st with spans := p.1, avail := p.2 }

/-- `create_range_allocator` followed by the `range_allocator` constructor
with the `span_manager_pool` strategy.  A null handle (failed parameter
check) and the undefined behaviour of constructing a pool of
`(length / granularity) / 2 = 0` records (the constructor's loop indexes an
empty `std::vector`) are both `none`. -/
def mkAllocator (base len g : Nat) : Option RAState :=
  if base = 0 then none
  else if len = 0 then none
  else if g = 0 then none
  else if g > len then none
  else if len / g / 2 = 0 then none
  else
    some { base := base, length := len / g * g, granularity := g,
           avail := len / g / 2 - 1, spans := [⟨base, len / g * g⟩] }

/-- A public mutating call on a constructed allocator. -/
inductive Op where
  | alloc (len : Nat) (f : AllocFlags) (hint : Nat)
  | free (b len : Nat)

/-- Effect of one public call on the allocator state. -/
def step (st : RAState) : Op → Option RAState
  | .alloc l f h => (allocate_ st l f h).map fun p => p.2
  | .free b l => free_ st b l

/-- Effect of a sequence of public calls. -/
def run (st : RAState) : List Op → Option RAState
  | [] => some st
  | op :: ops => (step st op).bind fun st1 => run st1 ops

/-- Arithmetic side conditions under which a public call performs no
wrapping `size_t` arithmetic on in-range values: the hint of an EXACT or
ABOVE allocation plus the rounded length stays below 2^64, and a freed
range's rounded base plus rounded length stays below 2^64. -/
def OpOk (g : Nat) : Op → Prop
  | .alloc len f hint => (f = .exact ∨ f = .above) → hint + roundUp len g < wsize
  | .free b len => roundDown b g + roundUp len g < wsize

/-- Alignment side condition: the hint of an EXACT allocation is a
multiple of the granularity. -/
def OpAligned (g : Nat) : Op → Prop
  | .alloc _ f hint => f = .exact → g ∣ hint
  | .free _ _ => True

instance (g : Nat) : (op : Op) → Decidable (OpOk g op)
  | .alloc len f hint => inferInstanceAs (Decidable (_ → _))
  | .free b len => inferInstanceAs (Decidable (_ < _))

instance (g : Nat) : (op : Op) → Decidable (OpAligned g op)
  | .alloc _ f hint => inferInstanceAs (Decidable (_ → _))
  | .free _ _ => inferInstanceAs (Decidable True)

/-! ### The free-list invariant -/

/-- Relation between two spans in list order as the specification states
it: strictly ascending and neither overlapping nor adjacent. -/
def spanRel (a b : Span) : Prop := a.base + a.length < b.base

/-- Well-formedness of the free list from a position on: every span
starts at or after the running lower bound `lb`, has positive length,
ends inside the range (at or below `hi`), and leaves a gap of at least
one address before the following span. -/
def WFfrom (hi : Nat) : Nat → List Span → Prop
  | _, [] => True
  | lb, s :: rest =>
    lb ≤ s.base ∧ 0 < s.length ∧ s.base + s.length ≤ hi ∧
      WFfrom hi (s.base + s.length + 1) rest

instance instDecWFfrom : (hi lb : Nat) → (spans : List Span) → Decidable (WFfrom hi lb spans)
  | _, _, [] => .isTrue trivial
  | hi, lb, s :: rest =>
    have : Decidable (WFfrom hi (s.base + s.length + 1) rest) := instDecWFfrom _ _ _
    inferInstanceAs (Decidable (lb ≤ s.base ∧ 0 < s.length ∧ s.base + s.length ≤ hi ∧
      WFfrom hi (s.base + s.length + 1) rest))

/-- The allocator invariant: a well-formed span list over
`[base, base + length)`, with the configuration nonzero as guaranteed by
construction. -/
def InvX (st : RAState) : Prop :=
  WFfrom (st.base + st.length) st.base st.spans ∧ 0 < st.base ∧ 0 < st.granularity

instance (st : RAState) : Decidable (InvX st) :=
  inferInstanceAs (Decidable (_ ∧ _ ∧ _))

/-- Every span base and length is a multiple of `d`. -/
def SpanAligned (d : Nat) (spans : List Span) : Prop :=
  ∀ s ∈ spans, d ∣ s.base ∧ d ∣ s.length

instance (d : Nat) (spans : List Span) : Decidable (SpanAligned d spans) :=
  inferInstanceAs (Decidable (∀ s ∈ spans, _ ∧ _))

/-! ### Arithmetic helpers -/

theorem wsize_pos : 0 < wsize := by norm_num [wsize]

theorem mod_self_eq {a : Nat} (h : a < wsize) : a % wsize = a := Nat.mod_eq_of_lt h

theorem subw_eq {a b : Nat} (hba : b ≤ a) (ha : a < wsize) : subw a b = a - b := by
  unfold subw
  have hb : b ≤ wsize := le_of_lt (lt_of_le_of_lt hba ha)
  have h1 : a + (wsize - b) = wsize + (a - b) := by omega
  rw [h1, Nat.add_mod_left]
  exact Nat.mod_eq_of_lt (by omega)

theorem roundUp_dvd (l g : Nat) : g ∣ roundUp l g := dvd_mul_left g _

theorem roundDown_dvd (b g : Nat) : g ∣ roundDown b g := dvd_mul_left g _

theorem roundUp_ge {l g : Nat} (hg : 0 < g) (h : l + g - 1 < wsize) :
    l ≤ roundUp l g := by
  unfold roundUp
  rw [Nat.mod_eq_of_lt h]
  have h4 : l + g - 1 < (l + g - 1) / g * g + g := Nat.lt_div_mul_add hg
  omega

theorem roundUp_le {l g : Nat} (h : l + g - 1 < wsize) :
    roundUp l g ≤ l + g - 1 := by
  unfold roundUp
  rw [Nat.mod_eq_of_lt h]
  exact Nat.div_mul_le_self _ _

theorem roundUp_of_wrap {l g : Nat} (hl : l < wsize) (hg : g ≤ wsize)
    (h : wsize ≤ l + g - 1) : roundUp l g = 0 := by
  unfold roundUp
  have h1 : (l + g - 1) % wsize = l + g - 1 - wsize := by
    rw [Nat.mod_eq_sub_mod h]
    exact Nat.mod_eq_of_lt (by omega)
  rw [h1]
  have hg1 : 1 ≤ g := by omega
  have h2 : l + g - 1 - wsize < g := by omega
  rw [Nat.div_eq_of_lt h2, Nat.zero_mul]

theorem roundUp_of_dvd {x g : Nat} (hg : 0 < g) (hd : g ∣ x)
    (h : x + g - 1 < wsize) : roundUp x g = x := by
  obtain ⟨k, rfl⟩ := hd
  unfold roundUp
  rw [Nat.mod_eq_of_lt h]
  have h1 : g * k + g - 1 = g * k + (g - 1) := by omega
  rw [h1, Nat.mul_add_div hg, Nat.div_eq_of_lt (by omega), Nat.add_zero, Nat.mul_comm]

theorem roundDown_of_dvd {x g : Nat} (hd : g ∣ x) : roundDown x g = x :=
  Nat.div_mul_cancel hd

/-! ### Structural lemmas about `WFfrom` -/

theorem WFfrom_mono {hi lb lb2 : Nat} {spans : List Span} (h : lb2 ≤ lb)
    (hwf : WFfrom hi lb spans) : WFfrom hi lb2 spans := by
  cases spans with
  | nil => trivial
  | cons s rest =>
    obtain ⟨h1, h2, h3, h4⟩ := hwf
    exact ⟨le_trans h h1, h2, h3, h4⟩

theorem WFfrom_bounds {hi lb : Nat} {spans : List Span} (hwf : WFfrom hi lb spans) :
    ∀ s ∈ spans, lb ≤ s.base ∧ 0 < s.length ∧ s.base + s.length ≤ hi := by
  induction spans generalizing lb with
  | nil => intro s hs; cases hs
  | cons t rest ih =>
    obtain ⟨h1, h2, h3, h4⟩ := hwf
    intro s hs
    rcases List.mem_cons.mp hs with rfl | hs
    · exact ⟨h1, h2, h3⟩
    · obtain ⟨k1, k2, k3⟩ := ih h4 s hs
      exact ⟨by omega, k2, k3⟩

theorem WFfrom_pairwise {hi lb : Nat} {spans : List Span} (hwf : WFfrom hi lb spans) :
    List.Pairwise spanRel spans := by
  induction spans generalizing lb with
  | nil => exact List.Pairwise.nil
  | cons t rest ih =>
    obtain ⟨h1, h2, h3, h4⟩ := hwf
    refine List.Pairwise.cons ?_ (ih h4)
    intro s hs
    have := (WFfrom_bounds h4 s hs).1
    unfold spanRel
    omega

theorem WFfrom_append {hi lb : Nat} {pre rest : List Span}
    (hwf : WFfrom hi lb (pre ++ rest)) :
    ∀ p ∈ pre, ∀ s ∈ rest, p.base + p.length < s.base := by
  induction pre generalizing lb with
  | nil => intro p hp; cases hp
  | cons t ptl ih =>
    obtain ⟨h1, h2, h3, h4⟩ := hwf
    intro p hp s hs
    rcases List.mem_cons.mp hp with rfl | hp
    · have := (WFfrom_bounds h4 s (List.mem_append_right _ hs)).1
      omega
    · exact ih h4 p hp s hs

theorem WFfrom_suffix {hi : Nat} :
    ∀ {pre rest : List Span} {lb : Nat}, WFfrom hi lb (pre ++ rest) → WFfrom hi lb rest
  | [], _, _, h => h
  | p :: pre, rest, lb, h => by
    obtain ⟨h1, h2, h3, h4⟩ := h
    exact WFfrom_suffix (WFfrom_mono (by omega) h4)

/-! ### Preservation of the invariant by `free` -/

theorem freeScan_wf {hi b l : Nat} (hhi : hi < wsize) (hl : 0 < l) (hbl : b + l ≤ hi) :
    ∀ (spans : List Span) (lb avail : Nat) (sp1 : List Span) (av1 : Nat),
      lb ≤ b → WFfrom hi lb spans →
      freeScan b l avail spans = some (sp1, av1) →
      WFfrom hi lb sp1 ∧
      ∀ d, SpanAligned d spans → d ∣ b → d ∣ l → SpanAligned d sp1
  | [], lb, avail, sp1, av1, hlb, hwf, h => by
    unfold freeScan at h
    by_cases ha : avail = 0
    · rw [if_pos ha] at h; cases h
    · rw [if_neg ha] at h
      simp only [Option.some.injEq, Prod.mk.injEq] at h
      obtain ⟨rfl, rfl⟩ := h
      refine ⟨⟨hlb, hl, hbl, trivial⟩, ?_⟩
      intro d _ hdb hdl s hs
      rcases List.mem_cons.mp hs with rfl | hs
      · exact ⟨hdb, hdl⟩
      · cases hs
  | next :: rest, lb, avail, sp1, av1, hlb, hwf, h => by
    obtain ⟨h1, h2, h3, h4⟩ := hwf
    have hblw : b + l < wsize := lt_of_le_of_lt hbl hhi
    have hnw : next.base + next.length < wsize := lt_of_le_of_lt h3 hhi
    unfold freeScan at h
    rw [mod_self_eq hblw, mod_self_eq hnw] at h
    by_cases hc1 : b + l < next.base
    · rw [if_pos hc1] at h
      by_cases ha : avail = 0
      · rw [if_pos ha] at h; cases h
      · rw [if_neg ha] at h
        simp only [Option.some.injEq, Prod.mk.injEq] at h
        obtain ⟨rfl, rfl⟩ := h
        refine ⟨⟨hlb, hl, hbl, by dsimp only; omega, h2, h3, h4⟩, ?_⟩
        intro d hd hdb hdl s hs
        rcases List.mem_cons.mp hs with rfl | hs
        · exact ⟨hdb, hdl⟩
        · exact hd s hs
    · rw [if_neg hc1] at h
      by_cases hc2 : b + l = next.base
      · rw [if_pos hc2] at h
        simp only [Option.some.injEq, Prod.mk.injEq] at h
        obtain ⟨rfl, rfl⟩ := h
        rw [mod_self_eq (show next.length + l < wsize by omega)]
        refine ⟨⟨hlb, by dsimp only; omega, by dsimp only; omega, ?_⟩, ?_⟩
        · show WFfrom hi (b + (next.length + l) + 1) rest
          have e : b + (next.length + l) + 1 = next.base + next.length + 1 := by omega
          rw [e]; exact h4
        · intro d hd hdb hdl s hs
          rcases List.mem_cons.mp hs with rfl | hs
          · exact ⟨hdb, Nat.dvd_add (hd next (List.mem_cons_self _ _)).2 hdl⟩
          · exact hd s (List.mem_cons_of_mem _ hs)
      · rw [if_neg hc2] at h
        by_cases hc3 : b < next.base + next.length
        · rw [if_pos hc3] at h
          simp only [Option.some.injEq, Prod.mk.injEq] at h
          obtain ⟨rfl, rfl⟩ := h
          exact ⟨⟨h1, h2, h3, h4⟩, fun d hd _ _ => hd⟩
        · rw [if_neg hc3] at h
          by_cases hc4 : b = next.base + next.length
          · rw [if_pos hc4] at h
            cases rest with
            | nil =>
              dsimp only at h
              simp only [Option.some.injEq, Prod.mk.injEq] at h
              obtain ⟨rfl, rfl⟩ := h
              rw [mod_self_eq (show next.length + l < wsize by omega)]
              refine ⟨⟨h1, by dsimp only; omega, by dsimp only; omega, trivial⟩, ?_⟩
              intro d hd _ hdl s hs
              rcases List.mem_cons.mp hs with rfl | hs
              · exact ⟨(hd next (List.mem_cons_self _ _)).1,
                  Nat.dvd_add (hd next (List.mem_cons_self _ _)).2 hdl⟩
              · cases hs
            | cons nn rest2 =>
              obtain ⟨h41, h42, h43, h44⟩ := h4
              have hnnw : nn.base + nn.length < wsize := lt_of_le_of_lt h43 hhi
              dsimp only at h
              by_cases hc5 : nn.base < b + l
              · rw [if_pos hc5] at h
                simp only [Option.some.injEq, Prod.mk.injEq] at h
                obtain ⟨rfl, rfl⟩ := h
                exact ⟨⟨h1, h2, h3, h41, h42, h43, h44⟩, fun d hd _ _ => hd⟩
              · rw [if_neg hc5] at h
                by_cases hc6 : b + l = nn.base
                · rw [if_pos hc6] at h
                  simp only [Option.some.injEq, Prod.mk.injEq] at h
                  obtain ⟨rfl, rfl⟩ := h
                  rw [mod_self_eq (show l + nn.length < wsize by omega),
                    mod_self_eq (show next.length + (l + nn.length) < wsize by omega)]
                  refine ⟨⟨h1, by dsimp only; omega, by dsimp only; omega, ?_⟩, ?_⟩
                  · show WFfrom hi (next.base + (next.length + (l + nn.length)) + 1) rest2
                    have e : next.base + (next.length + (l + nn.length)) + 1 =
                        nn.base + nn.length + 1 := by omega
                    rw [e]; exact h44
                  · intro d hd _ hdl s hs
                    have hdn := hd next (List.mem_cons_self _ _)
                    have hdnn := hd nn (List.mem_cons_of_mem _ (List.mem_cons_self _ _))
                    rcases List.mem_cons.mp hs with rfl | hs
                    · exact ⟨hdn.1, Nat.dvd_add hdn.2 (Nat.dvd_add hdl hdnn.2)⟩
                    · exact hd s (List.mem_cons_of_mem _ (List.mem_cons_of_mem _ hs))
                · rw [if_neg hc6] at h
                  simp only [Option.some.injEq, Prod.mk.injEq] at h
                  obtain ⟨rfl, rfl⟩ := h
                  rw [mod_self_eq (show next.length + l < wsize by omega)]
                  refine ⟨⟨h1, by dsimp only; omega, by dsimp only; omega, ?_, h42, h43, h44⟩, ?_⟩
                  · show next.base + (next.length + l) + 1 ≤ nn.base
                    omega
                  · intro d hd _ hdl s hs
                    have hdn := hd next (List.mem_cons_self _ _)
                    rcases List.mem_cons.mp hs with rfl | hs
                    · exact ⟨hdn.1, Nat.dvd_add hdn.2 hdl⟩
                    · exact hd s (List.mem_cons_of_mem _ hs)
          · rw [if_neg hc4] at h
            rw [Option.map_eq_some'] at h
            obtain ⟨⟨sp2, av2⟩, hrec, heq⟩ := h
            simp only [Prod.mk.injEq] at heq
            obtain ⟨rfl, rfl⟩ := heq
            have hlb2 : next.base + next.length + 1 ≤ b := by omega
            obtain ⟨hwf2, hal2⟩ := freeScan_wf hhi hl hbl rest
              (next.base + next.length + 1) avail sp2 av2 hlb2 h4 hrec
            refine ⟨⟨h1, h2, h3, hwf2⟩, ?_⟩
            intro d hd hdb hdl s hs
            rcases List.mem_cons.mp hs with rfl | hs
            · exact hd s (List.mem_cons_self _ _)
            · exact hal2 d (fun t ht => hd t (List.mem_cons_of_mem _ ht)) hdb hdl s hs

/-! ### Preservation of the invariant by `allocate` -/

theorem trunc_low_wf {hi lb l avail : Nat} {curr : Span} {rest sp1 : List Span} {av1 : Nat}
    (hhi : hi ≤ wsize) (hlb : 0 < lb) (hl : 0 < l) (hck : l ≤ curr.length)
    (hwf : WFfrom hi lb (curr :: rest))
    (h : trunc_span_low curr rest l avail = (sp1, av1)) :
    WFfrom hi lb sp1 ∧
    ∀ d, SpanAligned d (curr :: rest) → d ∣ l → SpanAligned d sp1 := by
  obtain ⟨h1, h2, h3, h4⟩ := hwf
  unfold trunc_span_low at h
  by_cases hfull : l = curr.length
  · rw [if_pos hfull] at h
    simp only [Prod.mk.injEq] at h
    obtain ⟨rfl, rfl⟩ := h
    exact ⟨WFfrom_mono (by omega) h4,
      fun d hd _ s hs => hd s (List.mem_cons_of_mem _ hs)⟩
  · rw [if_neg hfull] at h
    simp only [Prod.mk.injEq] at h
    obtain ⟨rfl, rfl⟩ := h
    have hlt : l < curr.length := by omega
    have hclw : curr.length < wsize := by omega
    have hbw : curr.base + l < wsize := by omega
    rw [mod_self_eq hbw, subw_eq (le_of_lt hlt) hclw]
    refine ⟨⟨by dsimp only; omega, by dsimp only; omega, by dsimp only; omega, ?_⟩, ?_⟩
    · show WFfrom hi (curr.base + l + (curr.length - l) + 1) rest
      have e : curr.base + l + (curr.length - l) + 1 = curr.base + curr.length + 1 := by
        omega
      rw [e]; exact h4
    · intro d hd hdl s hs
      have hdc := hd curr (List.mem_cons_self _ _)
      rcases List.mem_cons.mp hs with rfl | hs
      · exact ⟨Nat.dvd_add hdc.1 hdl, Nat.dvd_sub' hdc.2 hdl⟩
      · exact hd s (List.mem_cons_of_mem _ hs)

theorem trunc_high_wf {hi lb l avail : Nat} {curr : Span} {rest sp1 : List Span} {av1 : Nat}
    (hhi : hi ≤ wsize) (hlb : 0 < lb) (hl : 0 < l) (hck : l ≤ curr.length)
    (hwf : WFfrom hi lb (curr :: rest))
    (h : trunc_span_high curr rest l avail = (sp1, av1)) :
    WFfrom hi lb sp1 ∧
    ∀ d, SpanAligned d (curr :: rest) → d ∣ l → SpanAligned d sp1 := by
  obtain ⟨h1, h2, h3, h4⟩ := hwf
  unfold trunc_span_high at h
  by_cases hfull : l = curr.length
  · rw [if_pos hfull] at h
    simp only [Prod.mk.injEq] at h
    obtain ⟨rfl, rfl⟩ := h
    exact ⟨WFfrom_mono (by omega) h4,
      fun d hd _ s hs => hd s (List.mem_cons_of_mem _ hs)⟩
  · rw [if_neg hfull] at h
    simp only [Prod.mk.injEq] at h
    obtain ⟨rfl, rfl⟩ := h
    have hlt : l < curr.length := by omega
    have hclw : curr.length < wsize := by omega
    rw [subw_eq (le_of_lt hlt) hclw]
    refine ⟨⟨by dsimp only; omega, by dsimp only; omega, by dsimp only; omega, ?_⟩, ?_⟩
    · show WFfrom hi (curr.base + (curr.length - l) + 1) rest
      exact WFfrom_mono (by omega) h4
    · intro d hd hdl s hs
      have hdc := hd curr (List.mem_cons_self _ _)
      rcases List.mem_cons.mp hs with rfl | hs
      · exact ⟨hdc.1, Nat.dvd_sub' hdc.2 hdl⟩
      · exact hd s (List.mem_cons_of_mem _ hs)

theorem trunc_middle_wf {hi lb l hint avail : Nat} {curr : Span} {rest sp1 : List Span}
    {av1 : Nat}
    (hhi : hi ≤ wsize) (hlb : 0 < lb) (hl : 0 < l)
    (hck1 : curr.base ≤ hint) (hck2 : hint + l ≤ curr.base + curr.length)
    (hne1 : curr.base ≠ hint) (hne2 : hint + l ≠ curr.base + curr.length)
    (hintw : hint + l < wsize) (hendw : curr.base + curr.length < wsize)
    (hwf : WFfrom hi lb (curr :: rest))
    (h : trunc_span_middle curr rest hint l avail = some (sp1, av1)) :
    WFfrom hi lb sp1 ∧
    ∀ d, SpanAligned d (curr :: rest) → d ∣ l → d ∣ hint → SpanAligned d sp1 := by
  obtain ⟨h1, h2, h3, h4⟩ := hwf
  unfold trunc_span_middle at h
  by_cases hfull : l = curr.length
  · exfalso; omega
  · rw [if_neg hfull] at h
    by_cases hav : avail = 0
    · rw [if_pos hav] at h; cases h
    · rw [if_neg hav] at h
      simp only [Option.some.injEq, Prod.mk.injEq] at h
      obtain ⟨rfl, rfl⟩ := h
      have hhw : hint < wsize := by omega
      rw [mod_self_eq hintw, mod_self_eq hendw,
        subw_eq hck1 hhw, subw_eq hck2 hendw]
      refine ⟨⟨by dsimp only; omega, by dsimp only; omega, by dsimp only; omega,
        by dsimp only; omega, by dsimp only; omega, by dsimp only; omega, ?_⟩, ?_⟩
      · show WFfrom hi (hint + l + (curr.base + curr.length - (hint + l)) + 1) rest
        have e : hint + l + (curr.base + curr.length - (hint + l)) + 1 =
            curr.base + curr.length + 1 := by omega
        rw [e]; exact h4
      · intro d hd hdl hdh s hs
        have hdc := hd curr (List.mem_cons_self _ _)
        rcases List.mem_cons.mp hs with rfl | hs
        · exact ⟨hdc.1, Nat.dvd_sub' hdh hdc.1⟩
        · rcases List.mem_cons.mp hs with rfl | hs
          · exact ⟨Nat.dvd_add hdh hdl,
              Nat.dvd_sub' (Nat.dvd_add hdc.1 hdc.2) (Nat.dvd_add hdh hdl)⟩
          · exact hd s (List.mem_cons_of_mem _ hs)

theorem split_span_wf {hi lb l hint avail : Nat} {f : AllocFlags} {curr : Span}
    {rest : List Span} {a : Nat} {sp1 : List Span} {av1 : Nat}
    (hhi : hi ≤ wsize) (hlb : 0 < lb) (hl : 0 < l)
    (hck : check_span curr l f hint = true)
    (hwf : WFfrom hi lb (curr :: rest))
    (hex : f = .exact → hint + l < wsize)
    (hab : f = .above → hint + l < wsize)
    (h : split_span curr rest l f hint avail = some (a, sp1, av1)) :
    WFfrom hi lb sp1 ∧
    ∀ d, SpanAligned d (curr :: rest) → d ∣ l → (f = .exact → d ∣ hint) →
      SpanAligned d sp1 := by
  have hcw : curr.base + curr.length ≤ wsize := le_trans hwf.2.2.1 hhi
  cases f with
  | any =>
    simp only [check_span, decide_eq_true_eq] at hck
    unfold split_span at h
    injection h with h
    obtain ⟨hwf2, hal⟩ := trunc_low_wf hhi hlb hl hck hwf (congrArg Prod.snd h)
    exact ⟨hwf2, fun d hd hdl _ => hal d hd hdl⟩
  | exact =>
    simp only [check_span, decide_eq_true_eq] at hck
    have hintw : hint + l < wsize := hex rfl
    rw [mod_self_eq hintw] at hck
    have hendw : curr.base + curr.length < wsize := by
      rcases Nat.lt_or_ge (curr.base + curr.length) wsize with hlt | hge
      · exact hlt
      · exfalso
        have he : curr.base + curr.length = wsize := by omega
        rw [he, Nat.mod_self] at hck
        omega
    rw [mod_self_eq hendw] at hck
    unfold split_span at h
    by_cases hb1 : curr.base = hint
    · rw [if_pos hb1] at h
      injection h with h
      obtain ⟨hwf2, hal⟩ := trunc_low_wf hhi hlb hl (by omega) hwf (congrArg Prod.snd h)
      exact ⟨hwf2, fun d hd hdl _ => hal d hd hdl⟩
    · rw [if_neg hb1, mod_self_eq hintw, mod_self_eq hendw] at h
      by_cases hb2 : hint + l = curr.base + curr.length
      · rw [if_pos hb2] at h
        injection h with h
        obtain ⟨hwf2, hal⟩ := trunc_high_wf hhi hlb hl (by omega) hwf (congrArg Prod.snd h)
        exact ⟨hwf2, fun d hd hdl _ => hal d hd hdl⟩
      · rw [if_neg hb2] at h
        rw [Option.map_eq_some'] at h
        obtain ⟨⟨sp2, av2⟩, hmid, heq⟩ := h
        simp only [Prod.mk.injEq] at heq
        obtain ⟨-, rfl, rfl⟩ := heq
        obtain ⟨hwf2, hal⟩ := trunc_middle_wf hhi hlb hl hck.1 hck.2 hb1 hb2 hintw
          hendw hwf hmid
        exact ⟨hwf2, fun d hd hdl hdh => hal d hd hdl (hdh rfl)⟩
  | above =>
    have hintw : hint + l < wsize := hab rfl
    have hlen : l ≤ curr.length := by
      by_cases hh1 : hint ≤ curr.base
      · simpa only [check_span, if_pos hh1, decide_eq_true_eq] using hck
      · have hendw : curr.base + curr.length < wsize := by
          rcases Nat.lt_or_ge (curr.base + curr.length) wsize with hlt | hge
          · exact hlt
          · exfalso
            have he : curr.base + curr.length = wsize := by omega
            simp only [check_span, if_neg hh1, he, Nat.mod_self] at hck
            rcases Nat.eq_zero_or_pos hint with hz | hpos
            · exact hh1 (by omega)
            · rw [if_neg (by omega : ¬ hint ≤ 0)] at hck
              exact Bool.noConfusion hck
        simp only [check_span, if_neg hh1, mod_self_eq hendw, mod_self_eq hintw] at hck
        by_cases hh2 : hint ≤ curr.base + curr.length
        · rw [if_pos hh2] at hck
          simp only [decide_eq_true_eq] at hck
          omega
        · rw [if_neg hh2] at hck
          exact Bool.noConfusion hck
    unfold split_span at h
    injection h with h
    obtain ⟨hwf2, hal⟩ := trunc_high_wf hhi hlb hl hlen hwf (congrArg Prod.snd h)
    exact ⟨hwf2, fun d hd hdl _ => hal d hd hdl⟩
  | below =>
    simp only [check_span, decide_eq_true_eq] at hck
    unfold split_span at h
    injection h with h
    obtain ⟨hwf2, hal⟩ := trunc_low_wf hhi hlb hl hck.2 hwf (congrArg Prod.snd h)
    exact ⟨hwf2, fun d hd hdl _ => hal d hd hdl⟩

theorem allocScan_wf {hi l hint : Nat} {f : AllocFlags}
    (hhi : hi ≤ wsize) (hl : 0 < l)
    (hex : f = .exact → hint + l < wsize)
    (hab : f = .above → hint + l < wsize) :
    ∀ (spans : List Span) (lb avail : Nat) (r : Option Nat) (sp1 : List Span) (av1 : Nat),
      0 < lb → WFfrom hi lb spans →
      allocScan l f hint avail spans = some (r, sp1, av1) →
      WFfrom hi lb sp1 ∧
      ∀ d, SpanAligned d spans → d ∣ l → (f = .exact → d ∣ hint) → SpanAligned d sp1
  | [], lb, avail, r, sp1, av1, hlb, hwf, h => by
    unfold allocScan at h
    simp only [Option.some.injEq, Prod.mk.injEq] at h
    obtain ⟨-, rfl, rfl⟩ := h
    exact ⟨trivial, fun d _ _ _ s hs => absurd hs (List.not_mem_nil s)⟩
  | curr :: rest, lb, avail, r, sp1, av1, hlb, hwf, h => by
    unfold allocScan at h
    by_cases hck : check_span curr l f hint = true
    · rw [if_pos hck] at h
      rw [Option.map_eq_some'] at h
      obtain ⟨⟨a2, sp2, av2⟩, hsp, heq⟩ := h
      simp only [Prod.mk.injEq] at heq
      obtain ⟨-, rfl, rfl⟩ := heq
      exact split_span_wf hhi hlb hl hck hwf hex hab hsp
    · rw [if_neg hck] at h
      rw [Option.map_eq_some'] at h
      obtain ⟨⟨r2, sp2, av2⟩, hrec, heq⟩ := h
      simp only [Prod.mk.injEq] at heq
      obtain ⟨rfl, rfl, rfl⟩ := heq
      obtain ⟨k1, k2, k3, k4⟩ := hwf
      obtain ⟨hwf2, hal2⟩ := allocScan_wf hhi hl hex hab rest
        (curr.base + curr.length + 1) avail r2 sp2 av2 (by omega) k4 hrec
      refine ⟨⟨k1, k2, k3, hwf2⟩, ?_⟩
      intro d hd hdl hdh s hs
      rcases List.mem_cons.mp hs with rfl | hs
      · exact hd s (List.mem_cons_self _ _)
      · exact hal2 d (fun t ht => hd t (List.mem_cons_of_mem _ ht)) hdl hdh s hs

/-! ### Preservation at the level of public calls -/

theorem free_pres {st st' : RAState} {b len : Nat}
    (hInv : InvX st) (hcap : st.base + st.length ≤ wsize)
    (hok : roundDown b st.granularity + roundUp len st.granularity < wsize)
    (h : free_ st b len = some st') :
    InvX st' ∧ st'.base = st.base ∧ st'.length = st.length ∧
      st'.granularity = st.granularity ∧
      (SpanAligned st.granularity st.spans → SpanAligned st'.granularity st'.spans) := by
  obtain ⟨hwf, hb0, hg0⟩ := hInv
  unfold free_ at h
  by_cases h0 : roundUp len st.granularity = 0
  · rw [if_pos h0] at h
    injection h with h
    subst h
    exact ⟨⟨hwf, hb0, hg0⟩, rfl, rfl, rfl, id⟩
  · rw [if_neg h0] at h
    by_cases h1 : roundDown b st.granularity < st.base
    · rw [if_pos h1] at h
      injection h with h
      subst h
      exact ⟨⟨hwf, hb0, hg0⟩, rfl, rfl, rfl, id⟩
    · rw [if_neg h1] at h
      by_cases h2 : (st.base + st.length) % wsize ≤ roundDown b st.granularity
      · rw [if_pos h2] at h
        injection h with h
        subst h
        exact ⟨⟨hwf, hb0, hg0⟩, rfl, rfl, rfl, id⟩
      · rw [if_neg h2] at h
        have hhiW : st.base + st.length < wsize := by
          rcases Nat.lt_or_ge (st.base + st.length) wsize with hlt | hge
          · exact hlt
          · exfalso
            have he : st.base + st.length = wsize := by omega
            rw [he, Nat.mod_self] at h2
            omega
        rw [mod_self_eq hhiW] at h h2
        by_cases h3 : st.base + st.length < (roundDown b st.granularity +
            roundUp len st.granularity) % wsize
        · rw [if_pos h3] at h
          injection h with h
          subst h
          exact ⟨⟨hwf, hb0, hg0⟩, rfl, rfl, rfl, id⟩
        · rw [if_neg h3] at h
          rw [Option.map_eq_some'] at h
          obtain ⟨⟨sp2, av2⟩, hscan, heq⟩ := h
          subst heq
          rw [mod_self_eq hok] at h3
          obtain ⟨hwf2, hal2⟩ := freeScan_wf hhiW (by omega) (by omega) st.spans
            st.base st.avail sp2 av2 (by omega) hwf hscan
          refine ⟨⟨hwf2, hb0, hg0⟩, rfl, rfl, rfl, ?_⟩
          intro hal
          exact hal2 st.granularity hal (roundDown_dvd _ _) (roundUp_dvd _ _)

theorem allocate_pres {st st' : RAState} {len hint : Nat} {f : AllocFlags} {r : Option Nat}
    (hInv : InvX st) (hcap : st.base + st.length ≤ wsize)
    (hex : f = .exact → hint + roundUp len st.granularity < wsize)
    (hab : f = .above → hint + roundUp len st.granularity < wsize)
    (h : allocate_ st len f hint = some (r, st')) :
    InvX st' ∧ st'.base = st.base ∧ st'.length = st.length ∧
      st'.granularity = st.granularity ∧
      ((f = .exact → st.granularity ∣ hint) →
        SpanAligned st.granularity st.spans → SpanAligned st'.granularity st'.spans) := by
  obtain ⟨hwf, hb0, hg0⟩ := hInv
  unfold allocate_ at h
  by_cases h0 : roundUp len st.granularity = 0
  · rw [if_pos h0] at h
    simp only [Option.some.injEq, Prod.mk.injEq] at h
    obtain ⟨-, rfl⟩ := h
    exact ⟨⟨hwf, hb0, hg0⟩, rfl, rfl, rfl, fun _ => id⟩
  · rw [if_neg h0] at h
    by_cases h1 : st.length < roundUp len st.granularity
    · rw [if_pos h1] at h
      simp only [Option.some.injEq, Prod.mk.injEq] at h
      obtain ⟨-, rfl⟩ := h
      exact ⟨⟨hwf, hb0, hg0⟩, rfl, rfl, rfl, fun _ => id⟩
    · rw [if_neg h1] at h
      rw [Option.map_eq_some'] at h
      obtain ⟨⟨r2, sp2, av2⟩, hscan, heq⟩ := h
      simp only [Prod.mk.injEq] at heq
      obtain ⟨rfl, rfl⟩ := heq
      obtain ⟨hwf2, hal2⟩ := allocScan_wf hcap (by omega) hex hab st.spans
        st.base st.avail r2 sp2 av2 hb0 hwf hscan
      refine ⟨⟨hwf2, hb0, hg0⟩, rfl, rfl, rfl, ?_⟩
      intro hdh hal
      exact hal2 st.granularity hal (roundUp_dvd _ _) hdh

theorem step_pres {st st' : RAState} {op : Op}
    (hInv : InvX st) (hcap : st.base + st.length ≤ wsize)
    (hok : OpOk st.granularity op)
    (h : step st op = some st') :
    InvX st' ∧ st'.base = st.base ∧ st'.length = st.length ∧
      st'.granularity = st.granularity ∧
      (OpAligned st.granularity op → SpanAligned st.granularity st.spans →
        SpanAligned st'.granularity st'.spans) := by
  cases op with
  | alloc len f hint =>
    unfold step at h
    rw [Option.map_eq_some'] at h
    obtain ⟨⟨r, st2⟩, halloc, heq⟩ := h
    subst heq
    obtain ⟨hI, he1, he2, he3, hA⟩ := allocate_pres hInv hcap
      (fun hf => hok (Or.inl hf)) (fun hf => hok (Or.inr hf)) halloc
    exact ⟨hI, he1, he2, he3, fun hopa => hA hopa⟩
  | free b len =>
    unfold step at h
    exact (free_pres hInv hcap hok h).imp id
      (fun hr => hr.imp id (fun hr => hr.imp id (fun hr => hr.imp id (fun hA _ => hA))))

theorem run_pres : ∀ (ops : List Op) (st stf : RAState),
    InvX st → st.base + st.length ≤ wsize →
    (∀ op ∈ ops, OpOk st.granularity op) →
    run st ops = some stf →
    InvX stf ∧ stf.base = st.base ∧ stf.length = st.length ∧
      stf.granularity = st.granularity ∧
      ((∀ op ∈ ops, OpAligned st.granularity op) →
        SpanAligned st.granularity st.spans → SpanAligned stf.granularity stf.spans)
  | [], st, stf, hInv, hcap, hok, h => by
    unfold run at h
    injection h with h
    subst h
    exact ⟨hInv, rfl, rfl, rfl, fun _ => id⟩
  | op :: ops, st, stf, hInv, hcap, hok, h => by
    unfold run at h
    rw [Option.bind_eq_some] at h
    obtain ⟨st1, hstep, hrun⟩ := h
    obtain ⟨hInv1, he1, he2, he3, hal1⟩ := step_pres hInv hcap
      (hok op (List.mem_cons_self _ _)) hstep
    have hcap1 : st1.base + st1.length ≤ wsize := by rw [he1, he2]; exact hcap
    have hok1 : ∀ o ∈ ops, OpOk st1.granularity o := by
      rw [he3]; exact fun o ho => hok o (List.mem_cons_of_mem _ ho)
    obtain ⟨hInvf, hf1, hf2, hf3, half⟩ := run_pres ops st1 stf hInv1 hcap1 hok1 hrun
    refine ⟨hInvf, hf1.trans he1, hf2.trans he2, hf3.trans he3, ?_⟩
    intro hopal hal
    have halst1 : SpanAligned st1.granularity st1.spans :=
      hal1 (hopal op (List.mem_cons_self _ _)) hal
    have hopal1 : ∀ o ∈ ops, OpAligned st1.granularity o := by
      rw [he3]; exact fun o ho => hopal o (List.mem_cons_of_mem _ ho)
    exact half hopal1 halst1

/-! ### Construction -/

theorem mkAllocator_inv {b l g : Nat} {st0 : RAState} (h : mkAllocator b l g = some st0) :
    st0.base = b ∧ st0.length = l / g * g ∧ st0.granularity = g ∧
      st0.avail = l / g / 2 - 1 ∧ st0.spans = [⟨b, l / g * g⟩] ∧
      0 < b ∧ 0 < g ∧ g ≤ l ∧ 1 ≤ l / g / 2 := by
  unfold mkAllocator at h
  by_cases h1 : b = 0
  · rw [if_pos h1] at h; cases h
  · rw [if_neg h1] at h
    by_cases h2 : l = 0
    · rw [if_pos h2] at h; cases h
    · rw [if_neg h2] at h
      by_cases h3 : g = 0
      · rw [if_pos h3] at h; cases h
      · rw [if_neg h3] at h
        by_cases h4 : g > l
        · rw [if_pos h4] at h; cases h
        · rw [if_neg h4] at h
          by_cases h5 : l / g / 2 = 0
          · rw [if_pos h5] at h; cases h
          · rw [if_neg h5] at h
            injection h with h
            subst h
            exact ⟨rfl, rfl, rfl, rfl, rfl, by omega, by omega, by omega,
              Nat.pos_of_ne_zero h5⟩

theorem mkAllocator_InvX {b l g : Nat} {st0 : RAState} (h : mkAllocator b l g = some st0) :
    InvX st0 := by
  obtain ⟨e1, e2, e3, e4, e5, hb, hg, hgl, hm⟩ := mkAllocator_inv h
  have hq : 2 ≤ l / g := by
    have := (Nat.le_div_iff_mul_le (by norm_num : 0 < 2)).mp hm
    omega
  have heff : 0 < l / g * g := Nat.mul_pos (by omega) hg
  refine ⟨?_, ?_, ?_⟩
  · rw [e1, e2, e5]
    exact ⟨le_refl _, heff, le_refl _, trivial⟩
  · rw [e1]; exact hb
  · rw [e3]; exact hg

/-! ### Frame lemmas -/

theorem allocate_frame {st : RAState} {len hint : Nat} {f : AllocFlags} {r : Option Nat}
    {st' : RAState} (h : allocate_ st len f hint = some (r, st')) :
    st'.base = st.base ∧ st'.length = st.length ∧ st'.granularity = st.granularity := by
  unfold allocate_ at h
  by_cases h0 : roundUp len st.granularity = 0
  · rw [if_pos h0] at h
    simp only [Option.some.injEq, Prod.mk.injEq] at h
    obtain ⟨-, rfl⟩ := h
    exact ⟨rfl, rfl, rfl⟩
  · rw [if_neg h0] at h
    by_cases h1 : st.length < roundUp len st.granularity
    · rw [if_pos h1] at h
      simp only [Option.some.injEq, Prod.mk.injEq] at h
      obtain ⟨-, rfl⟩ := h
      exact ⟨rfl, rfl, rfl⟩
    · rw [if_neg h1] at h
      rw [Option.map_eq_some'] at h
      obtain ⟨⟨r2, sp2, av2⟩, -, heq⟩ := h
      simp only [Prod.mk.injEq] at heq
      obtain ⟨-, rfl⟩ := heq
      exact ⟨rfl, rfl, rfl⟩

theorem free_frame {st st' : RAState} {b len : Nat} (h : free_ st b len = some st') :
    st'.base = st.base ∧ st'.length = st.length ∧ st'.granularity = st.granularity := by
  unfold free_ at h
  by_cases h0 : roundUp len st.granularity = 0
  · rw [if_pos h0] at h
    injection h with h
    subst h
    exact ⟨rfl, rfl, rfl⟩
  · rw [if_neg h0] at h
    by_cases h1 : roundDown b st.granularity < st.base
    · rw [if_pos h1] at h
      injection h with h
      subst h
      exact ⟨rfl, rfl, rfl⟩
    · rw [if_neg h1] at h
      by_cases h2 : (st.base + st.length) % wsize ≤ roundDown b st.granularity
      · rw [if_pos h2] at h
        injection h with h
        subst h
        exact ⟨rfl, rfl, rfl⟩
      · rw [if_neg h2] at h
        by_cases h3 : (st.base + st.length) % wsize <
            (roundDown b st.granularity + roundUp len st.granularity) % wsize
        · rw [if_pos h3] at h
          injection h with h
          subst h
          exact ⟨rfl, rfl, rfl⟩
        · rw [if_neg h3] at h
          rw [Option.map_eq_some'] at h
          obtain ⟨⟨sp2, av2⟩, -, heq⟩ := h
          subst heq
          exact ⟨rfl, rfl, rfl⟩

/-! ### Claim theorems -/

/-- Claim C1 (amended).  For every sequence of allocate and free calls
starting from a successfully constructed allocator, the free span list
remains strictly ordered by ascending base, with no two spans overlapping,
no two spans address-adjacent, and every span contained in
[base, base + effective_length) — PROVIDED that no `size_t` computation
wraps: the range must satisfy base + effective_length ≤ 2^64, every
EXACT/ABOVE allocate must satisfy hint + rounded length < 2^64, and every
free must satisfy rounded base + rounded length < 2^64 (see
`c1_counterexample` for why the claim fails without these conditions).
`List.Pairwise spanRel` states exactly strict ordering, non-overlap and
non-adjacency of the spans. -/
theorem c1_invariant_preserved {b l g : Nat} {ops : List Op} {st0 stf : RAState}
    (h0 : mkAllocator b l g = some st0)
    (hcap : st0.base + st0.length ≤ wsize)
    (hops : ∀ op ∈ ops, OpOk st0.granularity op)
    (h : run st0 ops = some stf) :
    List.Pairwise spanRel stf.spans ∧
      ∀ s ∈ stf.spans, stf.base ≤ s.base ∧ s.base + s.length ≤ stf.base + stf.length := by
  obtain ⟨hInvf, -, -, -, -⟩ := run_pres ops st0 stf (mkAllocator_InvX h0) hcap hops h
  exact ⟨WFfrom_pairwise hInvf.1, fun s hs =>
    ⟨(WFfrom_bounds hInvf.1 s hs).1, (WFfrom_bounds hInvf.1 s hs).2.2⟩⟩

/-- Witness for C1: the allocator over [0x1000, 0x1000 + 0x1000) with
granularity 64, after one ANY allocation and the matching free. -/
theorem c1_invariant_preserved_witness :
    List.Pairwise spanRel ([⟨4096, 4096⟩] : List Span) ∧
      ∀ s ∈ ([⟨4096, 4096⟩] : List Span),
        (4096 : Nat) ≤ s.base ∧ s.base + s.length ≤ 4096 + 4096 :=
  @c1_invariant_preserved 4096 4096 64 [Op.alloc 64 .any 0, Op.free 4096 64]
    ⟨4096, 4096, 64, 31, [⟨4096, 4096⟩]⟩ ⟨4096, 4096, 64, 31, [⟨4096, 4096⟩]⟩
    (by decide) (by decide) (by decide) (by decide)

/-- Claim C1 as literally stated is false. From the successfully
constructed allocator over the range starting at 2^64 - 100 (8192 bytes,
granularity 64), two ANY allocations of 64 bytes wrap the remaining
span's base around the address space: the resulting span ⟨28, 8064⟩ is
not contained in [base, base + effective_length). -/
theorem c1_counterexample :
    (mkAllocator (wsize - 100) 8192 64).bind
        (fun st => run st [Op.alloc 64 .any 0, Op.alloc 64 .any 0]) =
      some ⟨wsize - 100, 8192, 64, 63, [⟨28, 8064⟩]⟩ ∧
    ¬(wsize - 100 ≤ 28) := by
  exact ⟨by decide, by decide⟩

/-- Claim C3: the pool holds `(length / granularity) / 2` records — the
FLOOR, not the ceiling the specification states — and acquisition can
fail.  At the failing input (range of three granularity units, so
`ceil(3 / 2) = 2` but the pool holds `floor(3 / 2) = 1` record, consumed
by the initial span), an EXACT allocation in the middle unit needs a
second record and `span_manager_pool::get` returns null, which
`trunc_span_middle` then dereferences. -/
theorem c3_pool_exhaustion_bug :
    (mkAllocator 4096 192 64).bind (fun st => allocate_ st 64 .exact 4160) = none ∧
    192 / 64 / 2 = 1 ∧ (192 / 64 + 1) / 2 = 2 := by
  exact ⟨by decide, by decide, by decide⟩

/-- Claim C5: an out-of-range free is NOT always a silent no-op.  In the
reachable state over [0x1000, 0x2000) with free list [⟨6144, 2048⟩],
the call free(0x1000, 2^64 - 4032) rounds to a range whose end
0x1000 + 2^64 - 4032 lies far outside the allocator range, yet the
containment check `base + length > _base + _length` wraps and passes, and
the call inserts a wild span instead of being ignored. -/
theorem c5_out_of_range_free_mutates_bug :
    free_ ⟨4096, 4096, 64, 31, [⟨6144, 2048⟩]⟩ 4096 (wsize - 4032) =
      some ⟨4096, 4096, 64, 30, [⟨4096, wsize - 4032⟩, ⟨6144, 2048⟩]⟩ ∧
    roundDown 4096 64 = 4096 ∧ roundUp (wsize - 4032) 64 = wsize - 4032 ∧
    ¬(4096 + (wsize - 4032) ≤ 4096 + 4096) ∧
    (mkAllocator 4096 4096 64).bind
        (fun st => (allocate_ st 2048 .any 0).map (fun p => p.2)) =
      some ⟨4096, 4096, 64, 31, [⟨6144, 2048⟩]⟩ := by
  exact ⟨by decide, by decide, by decide, by decide, by decide⟩

/-- Claim C6 (amended).  Every span has a base that is a multiple of the
granularity and a positive multiple of the granularity as length —
PROVIDED the allocator base and every EXACT hint are themselves multiples
of the granularity (and the arithmetic side conditions of C1 hold).  The
source aligns neither the constructor base (the alignment code is
commented out) nor the EXACT hint, so the claim fails without these
conditions (`c6_counterexample`). -/
theorem c6_spans_aligned {b l g : Nat} {ops : List Op} {st0 stf : RAState}
    (h0 : mkAllocator b l g = some st0)
    (hcap : st0.base + st0.length ≤ wsize)
    (hops : ∀ op ∈ ops, OpOk st0.granularity op)
    (hbal : g ∣ b)
    (hopsal : ∀ op ∈ ops, OpAligned st0.granularity op)
    (h : run st0 ops = some stf) :
    ∀ s ∈ stf.spans,
      stf.granularity ∣ s.base ∧ stf.granularity ∣ s.length ∧ 0 < s.length := by
  obtain ⟨e1, e2, e3, e4, e5, hb, hg, hgl, hm⟩ := mkAllocator_inv h0
  obtain ⟨hInvf, -, -, -, hal⟩ := run_pres ops st0 stf (mkAllocator_InvX h0) hcap hops h
  have hal0 : SpanAligned st0.granularity st0.spans := by
    rw [e3, e5]
    intro s hs
    rcases List.mem_cons.mp hs with rfl | hs
    · exact ⟨hbal, dvd_mul_left g _⟩
    · cases hs
  have half := hal hopsal hal0
  intro s hs
  exact ⟨(half s hs).1, (half s hs).2, (WFfrom_bounds hInvf.1 s hs).2.1⟩

/-- Witness for C6: allocator at base 0x1000 (64-aligned), one EXACT
allocation at an aligned hint and a free. -/
theorem c6_spans_aligned_witness :
    (64 : Nat) ∣ 4096 ∧ (64 : Nat) ∣ 4096 ∧ (0 : Nat) < 4096 :=
  @c6_spans_aligned 4096 4096 64 [Op.alloc 64 .exact 4160, Op.free 4160 64]
    ⟨4096, 4096, 64, 31, [⟨4096, 4096⟩]⟩ ⟨4096, 4096, 64, 31, [⟨4096, 4096⟩]⟩
    (by decide) (by decide) (by decide) (by decide) (by decide) (by decide)
    ⟨4096, 4096⟩ (by decide)

/-- Claim C6 as literally stated is false: constructing the allocator at
the unaligned base 0x1001 succeeds (the source's base-alignment code is
commented out) and immediately yields a span whose base 4097 is not a
multiple of the granularity 64. -/
theorem c6_counterexample :
    mkAllocator 4097 4096 64 = some ⟨4097, 4096, 64, 31, [⟨4097, 4096⟩]⟩ ∧
    ¬((64 : Nat) ∣ 4097) := by
  exact ⟨by decide, by decide⟩

/-- Claim C7: the claim states construction succeeds for every
base ≠ 0, length ≠ 0, granularity ≠ 0 with granularity ≤ length, but when
granularity ≤ length < 2·granularity the pool size
`(length / granularity) / 2` is zero and the `span_manager_pool`
constructor indexes an empty `std::vector` (undefined behaviour, `none`
in the model): at base 0x1000, length 64, granularity 64 all parameter
checks pass yet no allocator is produced. -/
theorem c7_construction_crash_bug :
    mkAllocator 4096 64 64 = none ∧
      ((4096 : Nat) ≠ 0 ∧ (64 : Nat) ≠ 0 ∧ ¬((64 : Nat) > 64)) := by
  exact ⟨by decide, by decide⟩

/-- Claim C8: `allocate` rounds the requested length up to the next
multiple of the granularity in `size_t` arithmetic (so the sum
`length + granularity - 1` is taken modulo 2^64 and a near-2^64 request
rounds to 0), and whenever the rounded length is zero or the requested
length exceeds the effective capacity it returns the all-ones sentinel
with the state unchanged, before any search of the free list. -/
theorem c8_rounding_and_precheck {st : RAState} {len : Nat} {f : AllocFlags} {hint : Nat}
    (hg : 0 < st.granularity) (hgw : st.granularity < wsize) (hlen : len < wsize) :
    st.granularity ∣ roundUp len st.granularity ∧
    (len + st.granularity - 1 < wsize →
      len ≤ roundUp len st.granularity ∧
        roundUp len st.granularity < len + st.granularity) ∧
    (wsize ≤ len + st.granularity - 1 → roundUp len st.granularity = 0) ∧
    ((roundUp len st.granularity = 0 ∨ st.length < len) →
      allocate_result st len f hint = some (wsize - 1, st)) := by
  refine ⟨roundUp_dvd _ _, fun h => ⟨roundUp_ge hg h, ?_⟩,
    fun h => roundUp_of_wrap hlen (le_of_lt hgw) h, ?_⟩
  · have := roundUp_le h
    omega
  · intro hcase
    by_cases hr0 : roundUp len st.granularity = 0
    · unfold allocate_result allocate_
      rw [if_pos hr0]
      rfl
    · have hwlt : len + st.granularity - 1 < wsize := by
        rcases Nat.lt_or_ge (len + st.granularity - 1) wsize with hlt | hge
        · exact hlt
        · exact absurd (roundUp_of_wrap hlen (le_of_lt hgw) hge) hr0
      have hlt : st.length < roundUp len st.granularity := by
        have := roundUp_ge hg hwlt
        rcases hcase with hc | hc
        · exact absurd hc hr0
        · omega
      unfold allocate_result allocate_
      rw [if_neg hr0, if_pos hlt]
      rfl

/-- Witness for C8: a request of 8192 bytes against an effective capacity
of 4096 is rejected with the sentinel before any search. -/
theorem c8_rounding_and_precheck_witness :
    (64 : Nat) ∣ roundUp 8192 64 ∧
    (8192 + 64 - 1 < wsize →
      8192 ≤ roundUp 8192 64 ∧ roundUp 8192 64 < 8192 + 64) ∧
    (wsize ≤ 8192 + 64 - 1 → roundUp 8192 64 = 0) ∧
    ((roundUp 8192 64 = 0 ∨ 4096 < 8192) →
      allocate_result ⟨4096, 4096, 64, 31, [⟨4096, 4096⟩]⟩ 8192 .any 0 =
        some (wsize - 1, ⟨4096, 4096, 64, 31, [⟨4096, 4096⟩]⟩)) :=
  @c8_rounding_and_precheck ⟨4096, 4096, 64, 31, [⟨4096, 4096⟩]⟩ 8192 .any 0
    (by decide) (by decide) (by decide)

/-- Claim C10: neither `allocate` nor `free` ever changes the range base,
effective length or granularity of the allocator; only the span list and
the pool are mutated. -/
theorem c10_config_unchanged {st st' : RAState} {op : Op} (h : step st op = some st') :
    st'.base = st.base ∧ st'.length = st.length ∧ st'.granularity = st.granularity := by
  cases op with
  | alloc len f hint =>
    unfold step at h
    rw [Option.map_eq_some'] at h
    obtain ⟨⟨r, st2⟩, halloc, heq⟩ := h
    subst heq
    exact allocate_frame halloc
  | free b len =>
    unfold step at h
    exact free_frame h

/-- Witness for C10 at a concrete allocation step. -/
theorem c10_config_unchanged_witness :
    step ⟨4096, 4096, 64, 31, [⟨4096, 4096⟩]⟩ (Op.alloc 64 .any 0) =
      some ⟨4096, 4096, 64, 31, [⟨4160, 4032⟩]⟩ ∧
    ((4096 : Nat) = 4096 ∧ (4096 : Nat) = 4096 ∧ (64 : Nat) = 64) :=
  ⟨by decide, @c10_config_unchanged ⟨4096, 4096, 64, 31, [⟨4096, 4096⟩]⟩
    ⟨4096, 4096, 64, 31, [⟨4160, 4032⟩]⟩ (Op.alloc 64 .any 0) (by decide)⟩

/-! ### The free scan skips spans that end strictly before the freed range -/

theorem freeScan_append {b l : Nat} (hbl : b + l < wsize) :
    ∀ (pre rest : List Span) (avail : Nat),
      (∀ p ∈ pre, p.base + p.length < b ∧ p.base + p.length < wsize) →
      freeScan b l avail (pre ++ rest) =
        (freeScan b l avail rest).map fun p => (pre ++ p.1, p.2)
  | [], rest, avail, _ => by
    simp only [List.nil_append]
    cases freeScan b l avail rest with
    | none => rfl
    | some p => rfl
  | p :: pre, rest, avail, hpre => by
    obtain ⟨hp1, hp2⟩ := hpre p (List.mem_cons_self _ _)
    have hrec := freeScan_append hbl pre rest avail
      (fun q hq => hpre q (List.mem_cons_of_mem _ hq))
    simp only [List.cons_append]
    conv_lhs => rw [freeScan.eq_def]
    dsimp only
    rw [mod_self_eq hbl, mod_self_eq hp2]
    rw [if_neg (by omega), if_neg (by omega), if_neg (by omega), if_neg (by omega)]
    rw [hrec]
    cases freeScan b l avail rest with
    | none => rfl
    | some q => rfl

/-- Claim C9 (amended): when the rounded freed range starts exactly at the
end of a span `n1` and ends exactly at the base of the next span `n2`,
`free` performs the three-way merge: `n1` absorbs the freed length and all
of `n2` (`n1.length += length + n2.length`), `n2`'s node is unlinked and
its record is released back to the pool (`avail + 1`) — PROVIDED the
allocator range does not reach the top of the address space
(base + effective_length < 2^64).  The proviso is forced: for a validly
constructed allocator ending exactly at 2^64 the validation check
`base >= _base + _length` wraps to `base >= 0` and every free, including a
bridging one, is a silent no-op (`c9_counterexample`). -/
theorem c9_three_way_merge {st : RAState} {b len : Nat} {pre post : List Span}
    {n1 n2 : Span}
    (hInv : InvX st) (hcap : st.base + st.length < wsize)
    (hsp : st.spans = pre ++ n1 :: n2 :: post)
    (hb : roundDown b st.granularity = n1.base + n1.length)
    (hl : n1.base + n1.length + roundUp len st.granularity = n2.base) :
    free_ st b len =
      some { st with
        spans := pre ++
          ⟨n1.base, n1.length + (roundUp len st.granularity + n2.length)⟩ :: post,
        avail := st.avail + 1 } := by
  obtain ⟨hwf0, hb0, hg0⟩ := hInv
  rw [hsp] at hwf0
  have hwfr : WFfrom (st.base + st.length) st.base (n1 :: n2 :: post) :=
    WFfrom_suffix hwf0
  obtain ⟨k1, k2, k3, k4⟩ := hwfr
  obtain ⟨k41, k42, k43, k44⟩ := k4
  have hpreb : ∀ p ∈ pre,
      p.base + p.length < n1.base + n1.length ∧ p.base + p.length < wsize := by
    intro p hp
    have h1 := WFfrom_append hwf0 p hp n1 (List.mem_cons_self _ _)
    have h2 := (WFfrom_bounds hwf0 p (List.mem_append_left _ hp)).2.2
    omega
  unfold free_
  rw [hb]
  generalize hR : roundUp len st.granularity = rl at hl ⊢
  have hrl0 : 0 < rl := by omega
  have hn2w : n2.base + n2.length ≤ st.base + st.length := k43
  rw [if_neg (by omega), if_neg (by omega), mod_self_eq hcap,
    if_neg (by omega)]
  have e1 : (n1.base + n1.length + rl) % wsize = n2.base := by
    rw [hl]; exact mod_self_eq (by omega)
  rw [e1, if_neg (by omega)]
  have hfs : freeScan (n1.base + n1.length) rl st.avail (n1 :: n2 :: post) =
      some (⟨n1.base, n1.length + (rl + n2.length)⟩ :: post, st.avail + 1) := by
    unfold freeScan
    rw [e1, mod_self_eq (show n1.base + n1.length < wsize by omega)]
    rw [if_neg (by omega), if_neg (by omega), if_neg (by omega), if_pos rfl]
    dsimp only
    rw [if_neg (by omega), if_pos rfl]
    rw [mod_self_eq (show rl + n2.length < wsize by omega),
      mod_self_eq (show n1.length + (rl + n2.length) < wsize by omega)]
  rw [hsp, freeScan_append (show n1.base + n1.length + rl < wsize by omega)
    pre (n1 :: n2 :: post) st.avail hpreb, hfs]
  rfl

/-- Witness for C9: freeing [0x1040, 0x1100) between the free spans
[0x1000, 0x1040) and [0x1100, 0x1140) merges all three into one span of
length 0x140 and releases a record. -/
theorem c9_three_way_merge_witness :
    free_ ⟨4096, 4096, 64, 5, [⟨4096, 64⟩, ⟨4352, 64⟩]⟩ 4160 192 =
      some ⟨4096, 4096, 64, 6, [⟨4096, 320⟩]⟩ :=
  @c9_three_way_merge ⟨4096, 4096, 64, 5, [⟨4096, 64⟩, ⟨4352, 64⟩]⟩ 4160 192
    [] [] ⟨4096, 64⟩ ⟨4352, 64⟩ (by decide) (by decide) (by decide) (by decide)
    (by decide)

/-- Claim C9 as literally stated is false at the top of the address
space.  The allocator over [2^64 - 8192, 2^64) is validly constructed;
after an EXACT suffix cut at 2^64 - 64 and an EXACT middle split at
2^64 - 4096 it holds the consecutive free spans ⟨2^64 - 8192, 4096⟩ and
⟨2^64 - 4032, 3968⟩.  Freeing [2^64 - 4096, 2^64 - 4032) starts exactly
at the first span's end and ends exactly at the second span's base, so
the claim asserts a three-way merge; but `base >= _base + _length` wraps
to `base >= 0` and the call is a silent no-op: no merge, no record
released. -/
theorem c9_counterexample :
    (mkAllocator (wsize - 8192) 8192 64).bind
        (fun st => (allocate_ st 64 .exact (wsize - 64)).bind
          (fun p => (allocate_ p.2 64 .exact (wsize - 4096)).map (fun q => q.2))) =
      some ⟨wsize - 8192, 8192, 64, 62,
        [⟨wsize - 8192, 4096⟩, ⟨wsize - 4032, 3968⟩]⟩ ∧
    roundDown (wsize - 4096) 64 = (wsize - 8192) + 4096 ∧
    (wsize - 8192) + 4096 + roundUp 64 64 = wsize - 4032 ∧
    free_ ⟨wsize - 8192, 8192, 64, 62,
        [⟨wsize - 8192, 4096⟩, ⟨wsize - 4032, 3968⟩]⟩ (wsize - 4096) 64 =
      some ⟨wsize - 8192, 8192, 64, 62,
        [⟨wsize - 8192, 4096⟩, ⟨wsize - 4032, 3968⟩]⟩ := by
  exact ⟨by decide, by decide, by decide, by decide⟩

/-! ### Decomposition of a successful allocation scan -/

theorem allocScan_decomp {l hint : Nat} {f : AllocFlags} :
    ∀ {spans : List Span} {avail a : Nat} {sp1 : List Span} {av1 : Nat},
      allocScan l f hint avail spans = some (some a, sp1, av1) →
      ∃ pre curr rest mid,
        spans = pre ++ curr :: rest ∧
        (∀ p ∈ pre, check_span p l f hint = false) ∧
        check_span curr l f hint = true ∧
        split_span curr rest l f hint avail = some (a, mid, av1) ∧
        sp1 = pre ++ mid
  | [], avail, a, sp1, av1, h => by
    unfold allocScan at h
    simp only [Option.some.injEq, Prod.mk.injEq] at h
    exact absurd h.1 (by simp)
  | curr :: rest, avail, a, sp1, av1, h => by
    unfold allocScan at h
    by_cases hck : check_span curr l f hint = true
    · rw [if_pos hck] at h
      rw [Option.map_eq_some'] at h
      obtain ⟨⟨a2, sp2, av2⟩, hsp, heq⟩ := h
      simp only [Prod.mk.injEq, Option.some.injEq] at heq
      obtain ⟨rfl, rfl, rfl⟩ := heq
      refine ⟨[], curr, rest, sp2, rfl, ?_, hck, hsp, rfl⟩
      intro p hp
      cases hp
    · rw [if_neg hck] at h
      rw [Option.map_eq_some'] at h
      obtain ⟨⟨r2, sp2, av2⟩, hrec, heq⟩ := h
      simp only [Prod.mk.injEq] at heq
      obtain ⟨rfl, rfl, rfl⟩ := heq
      obtain ⟨pre, curr2, rest2, mid, e1, e2, e3, e4, e5⟩ := allocScan_decomp hrec
      refine ⟨curr :: pre, curr2, rest2, mid, by rw [e1, List.cons_append], ?_, e3, e4,
        by rw [e5, List.cons_append]⟩
      intro p hp
      rcases List.mem_cons.mp hp with rfl | hp
      · exact Bool.eq_false_iff.mpr hck
      · exact e2 p hp

theorem split_span_addr {l hint avail a av : Nat} {f : AllocFlags} {curr : Span}
    {rest mid : List Span}
    (h : split_span curr rest l f hint avail = some (a, mid, av)) :
    (f = .any → a = curr.base) ∧ (f = .below → a = curr.base) ∧
    (f = .exact → a = hint) ∧
    (f = .above → a = subw ((curr.base + curr.length) % wsize) l) := by
  cases f with
  | any =>
    have h2 : (some (curr.base, trunc_span_low curr rest l avail) :
        Option (Nat × List Span × Nat)) = some (a, mid, av) := h
    exact ⟨fun _ => (congrArg Prod.fst (Option.some.inj h2)).symm,
      fun hh => AllocFlags.noConfusion hh, fun hh => AllocFlags.noConfusion hh,
      fun hh => AllocFlags.noConfusion hh⟩
  | exact =>
    unfold split_span at h
    have haddr : a = hint := by
      by_cases hb1 : curr.base = hint
      · rw [if_pos hb1] at h
        exact (congrArg Prod.fst (Option.some.inj h)).symm
      · rw [if_neg hb1] at h
        by_cases hb2 : (hint + l) % wsize = (curr.base + curr.length) % wsize
        · rw [if_pos hb2] at h
          exact (congrArg Prod.fst (Option.some.inj h)).symm
        · rw [if_neg hb2] at h
          rw [Option.map_eq_some'] at h
          obtain ⟨⟨sp2, av2⟩, -, heq⟩ := h
          exact (congrArg Prod.fst heq).symm
    exact ⟨fun hh => AllocFlags.noConfusion hh, fun hh => AllocFlags.noConfusion hh,
      fun _ => haddr, fun hh => AllocFlags.noConfusion hh⟩
  | above =>
    have h2 : (some (subw ((curr.base + curr.length) % wsize) l,
        trunc_span_high curr rest l avail) :
        Option (Nat × List Span × Nat)) = some (a, mid, av) := h
    exact ⟨fun hh => AllocFlags.noConfusion hh, fun hh => AllocFlags.noConfusion hh,
      fun hh => AllocFlags.noConfusion hh,
      fun _ => (congrArg Prod.fst (Option.some.inj h2)).symm⟩
  | below =>
    have h2 : (some (curr.base, trunc_span_low curr rest l avail) :
        Option (Nat × List Span × Nat)) = some (a, mid, av) := h
    exact ⟨fun hh => AllocFlags.noConfusion hh,
      fun _ => (congrArg Prod.fst (Option.some.inj h2)).symm,
      fun hh => AllocFlags.noConfusion hh, fun hh => AllocFlags.noConfusion hh⟩

theorem hck_above_first {curr : Span} {l hint : Nat} (hh1 : hint ≤ curr.base)
    (hck : check_span curr l .above hint = true) : l ≤ curr.length := by
  simpa only [check_span, if_pos hh1, decide_eq_true_eq] using hck

theorem hck_above_second {curr : Span} {l hint : Nat} (hh1 : ¬ hint ≤ curr.base)
    (hintw : hint + l < wsize) (hendw : curr.base + curr.length < wsize)
    (hck : check_span curr l .above hint = true) :
    hint ≤ curr.base + curr.length ∧ hint + l ≤ curr.base + curr.length := by
  simp only [check_span, if_neg hh1, mod_self_eq hendw, mod_self_eq hintw] at hck
  by_cases hh2 : hint ≤ curr.base + curr.length
  · rw [if_pos hh2] at hck
    simp only [decide_eq_true_eq] at hck
    exact ⟨hh2, hck⟩
  · rw [if_neg hh2] at hck
    exact absurd hck (by simp)

/-- Claim C2 (amended).  For every successful allocate call on an
invariant-satisfying state whose range stays below the top of the address
space: with ABOVE (provided hint + rounded length < 2^64, see
`c2_counterexample`) the returned address is ≥ hint; with BELOW the
returned address plus the rounded length is ≤ hint; with EXACT the
returned address equals hint; with ANY the returned range was contained
in a span of the free list before the call. -/
theorem c2_policy_correctness {st st' : RAState} {len hint a : Nat} {f : AllocFlags}
    (hInv : InvX st) (hcap : st.base + st.length < wsize)
    (hab : f = .above → hint + roundUp len st.granularity < wsize)
    (h : allocate_ st len f hint = some (some a, st')) :
    (f = .above → hint ≤ a) ∧
    (f = .below → a + roundUp len st.granularity ≤ hint) ∧
    (f = .exact → a = hint) ∧
    (f = .any → ∃ s ∈ st.spans, s.base ≤ a ∧
      a + roundUp len st.granularity ≤ s.base + s.length) := by
  obtain ⟨hwf, hb0, hg0⟩ := hInv
  unfold allocate_ at h
  by_cases h0 : roundUp len st.granularity = 0
  · rw [if_pos h0] at h
    simp only [Option.some.injEq, Prod.mk.injEq] at h
    exact absurd h.1 (by simp)
  · rw [if_neg h0] at h
    by_cases h1 : st.length < roundUp len st.granularity
    · rw [if_pos h1] at h
      simp only [Option.some.injEq, Prod.mk.injEq] at h
      exact absurd h.1 (by simp)
    · rw [if_neg h1] at h
      rw [Option.map_eq_some'] at h
      obtain ⟨⟨r2, sp2, av2⟩, hscan, heq⟩ := h
      simp only [Prod.mk.injEq] at heq
      obtain ⟨rfl, rfl⟩ := heq
      obtain ⟨pre, curr, rest, mid, e1, e2, e3, e4, e5⟩ := allocScan_decomp hscan
      have hmem : curr ∈ st.spans := by
        rw [e1]; exact List.mem_append_right _ (List.mem_cons_self _ _)
      have hbnd := WFfrom_bounds hwf curr hmem
      have hendw : curr.base + curr.length < wsize := by omega
      have haddr := split_span_addr e4
      have hl0 : 0 < roundUp len st.granularity := by omega
      refine ⟨?_, ?_, haddr.2.2.1, ?_⟩
      · intro hf
        subst hf
        have hintw := hab rfl
        have ha := haddr.2.2.2 rfl
        rw [mod_self_eq hendw] at ha
        have hlen : roundUp len st.granularity ≤ curr.length := by
          by_cases hh1 : hint ≤ curr.base
          · have := hck_above_first hh1 e3
            omega
          · have := hck_above_second hh1 hintw hendw e3
            omega
        rw [ha, subw_eq (by omega) hendw]
        by_cases hh1 : hint ≤ curr.base
        · omega
        · have := hck_above_second hh1 hintw hendw e3
          omega
      · intro hf
        subst hf
        simp only [check_span, decide_eq_true_eq] at e3
        obtain ⟨e3a, e3b⟩ := e3
        have ha := haddr.2.1 rfl
        rw [mod_self_eq (by omega : curr.base + roundUp len st.granularity < wsize)]
          at e3a
        omega
      · intro hf
        subst hf
        simp only [check_span, decide_eq_true_eq] at e3
        have ha := haddr.1 rfl
        exact ⟨curr, hmem, by omega, by omega⟩

/-- Witness for C2: an ANY allocation of 64 bytes from the full free span. -/
theorem c2_policy_correctness_witness :
    (AllocFlags.any = AllocFlags.above → (0 : Nat) ≤ 4096) ∧
    (AllocFlags.any = AllocFlags.below → 4096 + roundUp 64 64 ≤ 0) ∧
    (AllocFlags.any = AllocFlags.exact → (4096 : Nat) = 0) ∧
    (AllocFlags.any = AllocFlags.any → ∃ s ∈ ([⟨4096, 4096⟩] : List Span),
      s.base ≤ 4096 ∧ 4096 + roundUp 64 64 ≤ s.base + s.length) :=
  @c2_policy_correctness ⟨4096, 4096, 64, 31, [⟨4096, 4096⟩]⟩
    ⟨4096, 4096, 64, 31, [⟨4160, 4032⟩]⟩ 64 0 4096 .any
    (by decide) (by decide) (by decide) (by decide)

/-- Claim C2 as literally stated is false for ABOVE: in the reachable
state over [2^64 - 4097, 2^64 - 1) with the single free span
⟨2^64 - 65, 64⟩, the call allocate(64, ABOVE, 2^64 - 2) computes
hint + length modulo 2^64 (= 62), the check passes spuriously, and the
returned address 2^64 - 65 is BELOW the hint. -/
theorem c2_counterexample :
    (mkAllocator (wsize - 4097) 4096 64).bind
        (fun st => (allocate_ st 4032 .any 0).map (fun p => p.2)) =
      some ⟨wsize - 4097, 4096, 64, 31, [⟨wsize - 65, 64⟩]⟩ ∧
    allocate_ ⟨wsize - 4097, 4096, 64, 31, [⟨wsize - 65, 64⟩]⟩ 64 .above (wsize - 2) =
      some (some (wsize - 65), ⟨wsize - 4097, 4096, 64, 32, []⟩) ∧
    ¬(wsize - 2 ≤ wsize - 65) := by
  exact ⟨by decide, by decide, by decide⟩

/-! ### Scan computation lemmas for the round-trip property -/

theorem WFfrom_head_lb {hi lb : Nat} {spans : List Span} (h : WFfrom hi lb spans) :
    ∀ s ∈ spans.head?, lb ≤ s.base := by
  cases spans with
  | nil => intro s hs; cases hs
  | cons t rest =>
    intro s hs
    rw [Option.mem_def] at hs
    injection hs with hs
    subst hs
    exact h.1

theorem freeScan_merge_front {b l av : Nat} {next : Span} {rest : List Span}
    (hb : b + l = next.base) (hblw : b + l < wsize) :
    freeScan b l av (next :: rest) =
      some (⟨b, (next.length + l) % wsize⟩ :: rest, av) := by
  unfold freeScan
  rw [mod_self_eq hblw, hb, if_neg (lt_irrefl _), if_pos rfl]

theorem freeScan_extend_back {b l av : Nat} {next : Span} {rest : List Span}
    (hb : b = next.base + next.length) (hl : 0 < l) (hblw : b + l < wsize)
    (hrest : ∀ nn ∈ rest.head?, b + l < nn.base) :
    freeScan b l av (next :: rest) =
      some (⟨next.base, (next.length + l) % wsize⟩ :: rest, av) := by
  have hnw : next.base + next.length < wsize := by omega
  unfold freeScan
  rw [mod_self_eq hblw, mod_self_eq hnw]
  rw [if_neg (by omega), if_neg (by omega), if_neg (by omega), if_pos hb]
  cases rest with
  | nil => dsimp only
  | cons nn rest2 =>
    have hnn := hrest nn rfl
    dsimp only
    rw [if_neg (by omega), if_neg (by omega)]

theorem freeScan_threeway {b l av : Nat} {next nn : Span} {rest : List Span}
    (hb : b = next.base + next.length) (hbl2 : b + l = nn.base) (hl : 0 < l)
    (hblw : b + l < wsize) :
    freeScan b l av (next :: nn :: rest) =
      some (⟨next.base, (next.length + (l + nn.length) % wsize) % wsize⟩ :: rest,
        av + 1) := by
  have hnw : next.base + next.length < wsize := by omega
  unfold freeScan
  rw [mod_self_eq hblw, mod_self_eq hnw]
  rw [if_neg (by omega), if_neg (by omega), if_neg (by omega), if_pos hb]
  dsimp only
  rw [if_neg (by omega), if_pos hbl2]

theorem freeScan_insert_front {b l av : Nat} {rest : List Span}
    (hav : av ≠ 0) (hblw : b + l < wsize)
    (hrest : ∀ r ∈ rest.head?, b + l < r.base) :
    freeScan b l av rest = some (⟨b, l⟩ :: rest, av - 1) := by
  cases rest with
  | nil =>
    unfold freeScan
    rw [if_neg hav]
  | cons r rest2 =>
    have hr := hrest r rfl
    unfold freeScan
    rw [mod_self_eq hblw, if_pos hr, if_neg hav]

theorem trunc_low_scan_restore {curr : Span} {rest mid : List Span} {L avail av2 : Nat}
    (hL : 0 < L) (hLc : L ≤ curr.length)
    (hendw : curr.base + curr.length < wsize)
    (hav : ∀ r ∈ rest.head?, curr.base + curr.length < r.base)
    (ht : trunc_span_low curr rest L avail = (mid, av2)) :
    freeScan curr.base L av2 mid = some (curr :: rest, avail) := by
  unfold trunc_span_low at ht
  by_cases hfull : L = curr.length
  · rw [if_pos hfull] at ht
    simp only [Prod.mk.injEq] at ht
    obtain ⟨rfl, rfl⟩ := ht
    subst hfull
    rw [freeScan_insert_front (by omega) (by omega)
      (fun r hr => by have := hav r hr; omega)]
    simp only [Nat.add_sub_cancel]
  · rw [if_neg hfull] at ht
    simp only [Prod.mk.injEq] at ht
    obtain ⟨rfl, rfl⟩ := ht
    rw [mod_self_eq (show curr.base + L < wsize by omega),
      subw_eq hLc (show curr.length < wsize by omega)]
    have hm := @freeScan_merge_front curr.base L avail ⟨curr.base + L, curr.length - L⟩
      rest rfl (by omega)
    rw [hm]
    have e : curr.length - L + L = curr.length := by omega
    rw [e, mod_self_eq (show curr.length < wsize by omega)]

theorem trunc_high_scan_restore {curr : Span} {rest mid : List Span} {L avail av2 : Nat}
    (hL : 0 < L) (hLc : L ≤ curr.length)
    (hendw : curr.base + curr.length < wsize)
    (hav : ∀ r ∈ rest.head?, curr.base + curr.length < r.base)
    (ht : trunc_span_high curr rest L avail = (mid, av2)) :
    freeScan (curr.base + curr.length - L) L av2 mid = some (curr :: rest, avail) := by
  unfold trunc_span_high at ht
  by_cases hfull : L = curr.length
  · rw [if_pos hfull] at ht
    simp only [Prod.mk.injEq] at ht
    obtain ⟨rfl, rfl⟩ := ht
    subst hfull
    have e : curr.base + curr.length - curr.length = curr.base := by omega
    rw [e, freeScan_insert_front (by omega) (by omega)
      (fun r hr => by have := hav r hr; omega)]
    simp only [Nat.add_sub_cancel]
  · rw [if_neg hfull] at ht
    simp only [Prod.mk.injEq] at ht
    obtain ⟨rfl, rfl⟩ := ht
    rw [subw_eq hLc (show curr.length < wsize by omega)]
    have hm := @freeScan_extend_back (curr.base + curr.length - L) L avail
      ⟨curr.base, curr.length - L⟩ rest (by dsimp only; omega) hL (by omega)
      (fun r hr => by have := hav r hr; omega)
    rw [hm]
    have e : curr.length - L + L = curr.length := by omega
    rw [e, mod_self_eq (show curr.length < wsize by omega)]

theorem free_restore_aux {st : RAState} {pre mid rest : List Span} {curr : Span}
    {a L av2 : Nat}
    (hsp : st.spans = pre ++ curr :: rest)
    (hcap : st.base + st.length < wsize)
    (hdA : roundDown a st.granularity = a)
    (huL : roundUp L st.granularity = L)
    (hL0 : 0 < L)
    (ha1 : st.base ≤ a) (ha2 : a + L ≤ st.base + st.length)
    (hpre : ∀ p ∈ pre, p.base + p.length < a ∧ p.base + p.length < wsize)
    (hfs : freeScan a L av2 mid = some (curr :: rest, st.avail)) :
    free_ { st with spans := pre ++ mid, avail := av2 } a L = some st := by
  unfold free_
  dsimp only
  rw [hdA, huL]
  rw [if_neg (by omega), if_neg (by omega), mod_self_eq hcap, if_neg (by omega),
    mod_self_eq (show a + L < wsize by omega), if_neg (by omega)]
  rw [freeScan_append (show a + L < wsize by omega) pre mid av2 hpre, hfs]
  simp only [Option.map_some']
  rw [← hsp]

/-- Claim C4 (amended).  For every allocator state satisfying the list
invariant and every successful allocate returning address `a` with
rounded length `l`, immediately calling free(a, l) restores the allocator
to exactly its state before the allocate — PROVIDED the returned address
is a multiple of the granularity (true whenever the allocator base and
EXACT hints are aligned, but false in general: see `c4_counterexample`),
the range stays below the top of the address space, EXACT/ABOVE hints
satisfy hint + rounded length < 2^64, and rounded length + granularity
≤ 2^64 (so that free's re-rounding of `l` is stable). -/
theorem c4_roundtrip {st st' : RAState} {len hint a : Nat} {f : AllocFlags}
    (hInv : InvX st) (hcap : st.base + st.length < wsize)
    (hal : st.granularity ∣ a)
    (hex : f = .exact → hint + roundUp len st.granularity < wsize)
    (hab : f = .above → hint + roundUp len st.granularity < wsize)
    (hgw : roundUp len st.granularity + st.granularity ≤ wsize)
    (h : allocate_ st len f hint = some (some a, st')) :
    free_ st' a (roundUp len st.granularity) = some st := by
  obtain ⟨hwf0, hb0, hg0⟩ := hInv
  unfold allocate_ at h
  by_cases h0 : roundUp len st.granularity = 0
  · rw [if_pos h0] at h
    simp only [Option.some.injEq, Prod.mk.injEq] at h
    exact absurd h.1 (by simp)
  · rw [if_neg h0] at h
    by_cases h1 : st.length < roundUp len st.granularity
    · rw [if_pos h1] at h
      simp only [Option.some.injEq, Prod.mk.injEq] at h
      exact absurd h.1 (by simp)
    · rw [if_neg h1] at h
      rw [Option.map_eq_some'] at h
      obtain ⟨⟨r2, sp2, av2⟩, hscan, heq⟩ := h
      simp only [Prod.mk.injEq] at heq
      obtain ⟨rfl, rfl⟩ := heq
      obtain ⟨pre, curr, rest, mid, e1, e2, e3, e4, e5⟩ := allocScan_decomp hscan
      subst e5
      rw [e1] at hwf0
      have hwfr := WFfrom_suffix hwf0
      obtain ⟨k1, k2, k3, k4⟩ := hwfr
      have hendw : curr.base + curr.length < wsize := by omega
      have hL0 : 0 < roundUp len st.granularity := by omega
      have huL : roundUp (roundUp len st.granularity) st.granularity =
          roundUp len st.granularity :=
        roundUp_of_dvd hg0 (roundUp_dvd _ _) (by omega)
      have hdA : roundDown a st.granularity = a := roundDown_of_dvd hal
      have hav : ∀ r ∈ rest.head?, curr.base + curr.length < r.base := by
        intro r hr
        have := WFfrom_head_lb k4 r hr
        omega
      have hpre : ∀ p ∈ pre, p.base + p.length < curr.base ∧
          p.base + p.length < wsize := by
        intro p hp
        refine ⟨WFfrom_append hwf0 p hp curr (List.mem_cons_self _ _), ?_⟩
        have := (WFfrom_bounds hwf0 p (List.mem_append_left _ hp)).2.2
        omega
      have haddr := split_span_addr e4
      cases f with
      | any =>
        simp only [check_span, decide_eq_true_eq] at e3
        obtain rfl := haddr.1 rfl
        have e4' : (some (curr.base,
            trunc_span_low curr rest (roundUp len st.granularity) st.avail) :
            Option (Nat × List Span × Nat)) = some (curr.base, mid, av2) := e4
        have ht := congrArg Prod.snd (Option.some.inj e4')
        exact free_restore_aux e1 hcap hdA huL hL0 (by omega) (by omega)
          (fun p hp => by have := hpre p hp; omega)
          (trunc_low_scan_restore hL0 e3 hendw hav ht)
      | below =>
        simp only [check_span, decide_eq_true_eq] at e3
        obtain rfl := haddr.2.1 rfl
        have e4' : (some (curr.base,
            trunc_span_low curr rest (roundUp len st.granularity) st.avail) :
            Option (Nat × List Span × Nat)) = some (curr.base, mid, av2) := e4
        have ht := congrArg Prod.snd (Option.some.inj e4')
        exact free_restore_aux e1 hcap hdA huL hL0 (by omega) (by omega)
          (fun p hp => by have := hpre p hp; omega)
          (trunc_low_scan_restore hL0 e3.2 hendw hav ht)
      | above =>
        have hintw := hab rfl
        have hLc : roundUp len st.granularity ≤ curr.length := by
          by_cases hh1 : hint ≤ curr.base
          · exact hck_above_first hh1 e3
          · have := hck_above_second hh1 hintw hendw e3
            omega
        have ha : a = curr.base + curr.length - roundUp len st.granularity := by
          have h2 := haddr.2.2.2 rfl
          rw [mod_self_eq hendw, subw_eq (by omega) hendw] at h2
          exact h2
        subst ha
        have e4' : (some (subw ((curr.base + curr.length) % wsize)
            (roundUp len st.granularity),
            trunc_span_high curr rest (roundUp len st.granularity) st.avail) :
            Option (Nat × List Span × Nat)) =
            some (curr.base + curr.length - roundUp len st.granularity, mid, av2) := e4
        have ht := congrArg Prod.snd (Option.some.inj e4')
        exact free_restore_aux e1 hcap hdA huL hL0 (by omega) (by omega)
          (fun p hp => by have := hpre p hp; omega)
          (trunc_high_scan_restore hL0 hLc hendw hav ht)
      | exact =>
        have hintw := hex rfl
        obtain rfl := haddr.2.2.1 rfl
        simp only [check_span, decide_eq_true_eq] at e3
        rw [mod_self_eq hintw, mod_self_eq hendw] at e3
        obtain ⟨e3a, e3b⟩ := e3
        unfold split_span at e4
        by_cases hb1 : curr.base = a
        · rw [if_pos hb1] at e4
          have e4' : (some (a,
              trunc_span_low curr rest (roundUp len st.granularity) st.avail) :
              Option (Nat × List Span × Nat)) = some (a, mid, av2) := e4
          have ht := congrArg Prod.snd (Option.some.inj e4')
          have hfs := trunc_low_scan_restore hL0 (by omega) hendw hav ht
          rw [hb1] at hfs
          exact free_restore_aux e1 hcap hdA huL hL0 (by omega) (by omega)
            (fun p hp => by have := hpre p hp; omega) hfs
        · rw [if_neg hb1, mod_self_eq hintw, mod_self_eq hendw] at e4
          by_cases hb2 : a + roundUp len st.granularity =
              curr.base + curr.length
          · rw [if_pos hb2] at e4
            have e4' : (some (a,
                trunc_span_high curr rest (roundUp len st.granularity) st.avail) :
                Option (Nat × List Span × Nat)) = some (a, mid, av2) := e4
            have ht := congrArg Prod.snd (Option.some.inj e4')
            have hfs := trunc_high_scan_restore hL0 (by omega) hendw hav ht
            have e6 : curr.base + curr.length - roundUp len st.granularity = a := by
              omega
            rw [e6] at hfs
            exact free_restore_aux e1 hcap hdA huL hL0 (by omega) (by omega)
              (fun p hp => by have := hpre p hp; omega) hfs
          · rw [if_neg hb2] at e4
            rw [Option.map_eq_some'] at e4
            obtain ⟨⟨sp3, av3⟩, hmid, heq2⟩ := e4
            simp only [Prod.mk.injEq] at heq2
            obtain ⟨-, rfl, rfl⟩ := heq2
            unfold trunc_span_middle at hmid
            by_cases hfull : roundUp len st.granularity = curr.length
            · exfalso; omega
            · rw [if_neg hfull] at hmid
              by_cases hz : st.avail = 0
              · rw [if_pos hz] at hmid; cases hmid
              · rw [if_neg hz] at hmid
                simp only [Option.some.injEq, Prod.mk.injEq] at hmid
                obtain ⟨rfl, rfl⟩ := hmid
                rw [mod_self_eq hintw, mod_self_eq hendw,
                  subw_eq e3a (by omega : a < wsize), subw_eq e3b hendw]
                have hfs : freeScan a (roundUp len st.granularity) (st.avail - 1)
                    (⟨curr.base, a - curr.base⟩ ::
                     ⟨a + roundUp len st.granularity,
                      curr.base + curr.length -
                        (a + roundUp len st.granularity)⟩ :: rest) =
                    some (curr :: rest, st.avail) := by
                  have hm := @freeScan_threeway a (roundUp len st.granularity)
                    (st.avail - 1) ⟨curr.base, a - curr.base⟩
                    ⟨a + roundUp len st.granularity,
                     curr.base + curr.length -
                       (a + roundUp len st.granularity)⟩ rest
                    (by dsimp only; omega) rfl hL0 (by omega)
                  rw [hm]
                  have e7 : roundUp len st.granularity +
                      (curr.base + curr.length -
                        (a + roundUp len st.granularity)) =
                      curr.base + curr.length - a := by omega
                  have e8 : a - curr.base + (curr.base + curr.length - a) =
                      curr.length := by omega
                  have e9 : st.avail - 1 + 1 = st.avail := by omega
                  have w1 : curr.base + curr.length - a < wsize := by omega
                  have w2 : curr.length < wsize := by omega
                  dsimp only
                  rw [e7, mod_self_eq w1, e8, mod_self_eq w2, e9]
                exact free_restore_aux e1 hcap hdA huL hL0 (by omega) (by omega)
                  (fun p hp => by have := hpre p hp; omega) hfs

/-- Witness for C4: an ANY allocation of 128 bytes from the fresh
allocator over [0x1000, 0x2000), freed again, restores the initial
state. -/
theorem c4_roundtrip_witness :
    free_ ⟨4096, 4096, 64, 31, [⟨4224, 3968⟩]⟩ 4096 (roundUp 128 64) =
      some ⟨4096, 4096, 64, 31, [⟨4096, 4096⟩]⟩ :=
  @c4_roundtrip ⟨4096, 4096, 64, 31, [⟨4096, 4096⟩]⟩
    ⟨4096, 4096, 64, 31, [⟨4224, 3968⟩]⟩ 128 0 4096 .any
    (by decide) (by decide) (by decide) (by decide) (by decide) (by decide)
    (by decide)

/-- Claim C4 as literally stated is false: from the pristine allocator
over [0x1000, 0x2000), allocate(64, EXACT, 0x1010) succeeds at the
unaligned hint 0x1010, but free(0x1010, 64) rounds the base DOWN to
0x1000, collides with the remaining free span ⟨4096, 16⟩ and is silently
ignored, so the pre-allocation state (one span of 4096 bytes) is not
restored. -/
theorem c4_counterexample :
    (mkAllocator 4096 4096 64).bind (fun st => allocate_ st 64 .exact 4112) =
      some (some 4112, ⟨4096, 4096, 64, 30, [⟨4096, 16⟩, ⟨4176, 4016⟩]⟩) ∧
    free_ ⟨4096, 4096, 64, 30, [⟨4096, 16⟩, ⟨4176, 4016⟩]⟩ 4112 (roundUp 64 64) =
      some ⟨4096, 4096, 64, 30, [⟨4096, 16⟩, ⟨4176, 4016⟩]⟩ ∧
    (⟨4096, 4096, 64, 30, [⟨4096, 16⟩, ⟨4176, 4016⟩]⟩ : RAState) ≠
      ⟨4096, 4096, 64, 31, [⟨4096, 4096⟩]⟩ := by
  exact ⟨by decide, by decide, by decide⟩

end RangeAlloc
